import Mathlib

/-!
Verification of the ETmbit `general` MakeCode extension.

The development shallowly embeds the radio fragmentation/reassembly
protocol, the channel registry, the group-selection debounce state
machine and the two cancellation-flag wait variants of the repository
(files `src/unnamed/part_000` aka `general.ts`, and `src/main.ts`).

Strings are modelled as `List Char`.  The JavaScript string primitives
used by the source (`String.prototype.substr` and the unary plus
string-to-number coercion) are embedded faithfully below.
-/

/-- JavaScript `String.prototype.substr(start, length)` on a character
list.  A negative `start` counts from the end of the string (clamped
at 0); `length` is clamped to the remaining size, and a negative
`length` yields the empty string. -/
def jsSubstr (s : List Char) (start len : Int) : List Char :=
  let n : Int := s.length
  let st : Int := if start < 0 then max (n + start) 0 else start
  let ln : Int := min (max len 0) (n - st)
  (s.drop st.toNat).take ln.toNat

/-- JavaScript one-argument `String.prototype.substr(start)`: the
substring from `start` to the end of the string. -/
def jsSubstrEnd (s : List Char) (start : Int) : List Char :=
  jsSubstr s start s.length

/-- The characters JavaScript trims as whitespace when converting a
string to a number. -/
def jsWhitespace (c : Char) : Bool :=
  c == ' ' || c == '\t' || c == '\n' || c == '\r' || c == '\x0b' ||
  c == '\x0c' || c == '\xa0' || c == '\uFEFF' || c == '\u2028' || c == '\u2029'

/-- Numeric value of an ASCII digit character, as a rational.
(`mkRat` keeps every value kernel-computable.) -/
def digitVal (c : Char) : ℚ := mkRat ((c.toNat - '0'.toNat : Nat) : Int) 1

/-- JavaScript unary plus (ToNumber) applied to a string of length at
most two, the only shape the receive handler ever converts (`let id =
+idstr` on `idstr = msg.substr(0, 2)` in `radio.onReceivedString`,
general.ts line 163).  `none` models NaN.  For strings of at most two
characters the ECMAScript string numeric grammar admits exactly:
the empty/whitespace strings (value 0), one or two digits, a sign
followed by a digit, and a dot adjacent to a digit. -/
def jsPlus2 : List Char → Option ℚ
  | [] => some 0
  | [c] =>
      if c.isDigit then some (digitVal c)
      else if jsWhitespace c then some 0
      else none
  | [c₁, c₂] =>
      if c₁.isDigit && c₂.isDigit then
        some (mkRat ((10 * (c₁.toNat - '0'.toNat) + (c₂.toNat - '0'.toNat) : Nat) : Int) 1)
      else if jsWhitespace c₁ && jsWhitespace c₂ then some 0
      else if jsWhitespace c₁ && c₂.isDigit then some (digitVal c₂)
      else if c₁.isDigit && jsWhitespace c₂ then some (digitVal c₁)
      else if c₁ == '+' && c₂.isDigit then some (digitVal c₂)
      else if c₁ == '-' && c₂.isDigit then
        some (mkRat (-((c₂.toNat - '0'.toNat : Nat) : Int)) 1)
      else if c₁ == '.' && c₂.isDigit then
        some (mkRat ((c₂.toNat - '0'.toNat : Nat) : Int) 10)
      else if c₁.isDigit && c₂ == '.' then some (digitVal c₁)
      else none
  | _ => none

/-- The global radio-channel registry of general.ts: the parallel
lists `ETradioIds`, `ETradioMsgs` and `ETradioHandlers` plus the
shared fallback callback `ETradioHandler` (set by
`General.onRadioMessage`).  Callbacks are abstract values of type `κ`;
a `none` handler models an uninitialized (undefined) function
variable. -/
structure RadioState (κ : Type) where
  ids : List (List Char)
  msgs : List (List Char)
  handlers : List (Option κ)
  fallback : Option κ
deriving DecidableEq

/-- Id normalization of `General.registerMessageHandler`
(general.ts lines 407-412): the switch on `id.length`. -/
def normalizeId (id : List Char) : List Char :=
  match id.length with
  | 0 => ['E', 'T']
  | 1 => id ++ ['#']
  | 2 => id
  | _ + 3 => jsSubstr id 0 2

/-- `General.registerMessageHandler` (general.ts lines 404-417):
normalizes the id, appends handler, id and an empty accumulator, and
returns `ETradioHandlers.length - 1` (the ordinal index of the new
entry). -/
def registerMessageHandler {κ : Type} (st : RadioState κ) (id : List Char)
    (hnd : Option κ) : RadioState κ × Nat :=
  let nid := normalizeId id
  ({ st with
      handlers := st.handlers ++ [hnd],
      ids := st.ids ++ [nid],
      msgs := st.msgs ++ [[]] },
   (st.handlers ++ [hnd]).length - 1)

/-- The linear scan `for (ix = 0; ...) if (idstr == ETradioIds[ix]) break`
of the receive handler: first matching index, or `ids.length` when the
id is not registered. -/
def findIdIdx (ids : List (List Char)) (idstr : List Char) : Nat :=
  ids.findIdx (fun x => x == idstr)

/-- The guard `if (id <= 0 || id >= 100) return` of the receive handler
(general.ts line 178), applied to the JavaScript numeric coercion of
the two-character id.  Both comparisons are false for NaN (`none`), so
a non-numeric id is NOT dropped. -/
def dropsId (idstr : List Char) : Bool :=
  match jsPlus2 idstr with
  | some q => decide (q ≤ 0 ∨ 100 ≤ q)
  | none => false

/-- Result of running the receive handler once: either the updated
registry plus the (at most one) callback invocation performed, or the
fatal invocation of an undefined handler. -/
inductive RecvResult (κ : Type) where
  | ok (st : RadioState κ) (delivered : List (κ × List Char))
  | nullHandler
deriving DecidableEq

/-- The terminator test `msg.substr(msg.length - 1) == "~"` of
`radio.onReceivedString` (general.ts line 164). -/
def recvEndOf (msg : List Char) : Bool :=
  jsSubstrEnd msg ((msg.length : Int) - 1) == ['~']

/-- The chunk extraction of `radio.onReceivedString` (general.ts lines
166-169): strip the 2-character id, and the trailing terminator when
present. -/
def recvChunkOf (msg : List Char) : List Char :=
  if recvEndOf msg then jsSubstr msg 2 ((msg.length : Int) - 3)
  else jsSubstr msg 2 ((msg.length : Int) - 2)

/-- The tail of `radio.onReceivedString` (general.ts lines 182-186):
`ETradioMsgs[ix] += chunk`, and on a terminator the call
`ETradioHandlers[ix](ETradioMsgs[ix])` followed by the accumulator
reset.  Calling an uninitialized handler is fatal. -/
def deliverStep {κ : Type} (st : RadioState κ) (ix : Nat) (chunk : List Char)
    (msgend : Bool) : RecvResult κ :=
  let acc := st.msgs.getD ix [] ++ chunk
  if msgend then
    match st.handlers.getD ix none with
    | some h => .ok { st with msgs := (st.msgs.set ix acc).set ix [] } [(h, acc)]
    | none => .nullHandler
  else .ok { st with msgs := st.msgs.set ix acc } []

/-- The routing of `radio.onReceivedString` (general.ts lines 171-186):
scan the registry; on a miss, return when the numeric guard drops the
id, otherwise auto-register the id bound to the shared fallback
callback; then append/deliver at index `ix`. -/
def recvRoute {κ : Type} (st : RadioState κ) (idstr chunk : List Char)
    (msgend : Bool) : RecvResult κ :=
  let ix := findIdIdx st.ids idstr
  if ix = st.ids.length then
    if dropsId idstr then .ok st []
    else deliverStep (registerMessageHandler st idstr st.fallback).1 ix chunk msgend
  else deliverStep st ix chunk msgend

/-- The `radio.onReceivedString` handler (general.ts lines 150-187). -/
def onReceivedString {κ : Type} (st : RadioState κ) (msg : List Char) :
    RecvResult κ :=
  recvRoute st (jsSubstr msg 0 2) (recvChunkOf msg) (recvEndOf msg)

/-- Feed a sequence of transmission units, in order, into the receive
handler, collecting all callback invocations; `none` when some unit
hits the fatal undefined-handler path. -/
def runReceive {κ : Type} (st : RadioState κ) :
    List (List Char) → Option (RadioState κ × List (κ × List Char))
  | [] => some (st, [])
  | u :: us =>
      match onReceivedString st u with
      | .ok st' ds => (runReceive st' us).map (fun p => (p.1, ds ++ p.2))
      | .nullHandler => none

/-- The two-digit decimal rendering of the id in
`General.sendRadioMessage` (general.ts lines 478-482):
`idstr = (id < 10 ? "0" : "") + id.toString()`.  For the integers the
guard admits, `toString` is plain decimal rendering. -/
def idStr (id : Int) : List Char :=
  if id < 10 then '0' :: Nat.toDigits 10 id.toNat
  else Nat.toDigits 10 id.toNat

/-- The do-while chunking loop of `General.sendRadioMessage`
(general.ts lines 485-492).  Each pass takes up to 17 characters
(`msg.substr(0, 17)`, equal to `take 17`), drops them from the message
(`msg.substr(17)`, equal to `drop 17`), appends the terminator tilde
exactly when the chunk is SHORTER than 17 characters, and emits
`idstr + chunk`; the loop repeats while text remains.  The fuel
argument only bounds the recursion; any fuel exceeding the message
length reproduces the loop exactly. -/
def sendChunksGo (idstr : List Char) : Nat → List Char → List (List Char)
  | 0, _ => []
  | fuel + 1, msg =>
      let chunk := msg.take 17
      let rest := msg.drop 17
      let chunk2 := if chunk.length < 17 then chunk ++ ['~'] else chunk
      (idstr ++ chunk2) :: (if 0 < rest.length then sendChunksGo idstr fuel rest else [])

/-- `General.sendRadioMessage` (general.ts lines 464-493): the
out-of-range guard `if (id <= 0 || id >= 100) return`, then the
chunking loop.  The result is the ordered list of transmission units
passed to `radio.sendString`. -/
def sendRadioMessage (msg : List Char) (id : Int) : List (List Char) :=
  if id ≤ 0 ∨ 100 ≤ id then []
  else sendChunksGo (idStr id) (msg.length + 1) msg

/-- The group debounce state of general.ts: `ETgroup` (the radio
group), `ETgroupTimer` (the pending deadline in milliseconds, 0 when
idle) and `ETgroupSet` (the settled flag). -/
structure GroupState where
  group : Nat
  timer : Nat
  set : Bool
deriving DecidableEq

/-- The group increment of the logo handler (general.ts lines
135-136): `ETgroup++; if (ETgroup > 9) ETgroup = 1`. -/
def incWrap (g : Nat) : Nat :=
  if 9 < g + 1 then 1 else g + 1

/-- The `input.onLogoEvent` handler (general.ts lines 133-148), as a
transformer on the group state at gesture time `now`.  When the
settled flag is up the group increments (wrapping 9 to 1), otherwise
the gesture only raises the flag; in either case the deadline is
re-armed to `now + 1000` (when the timer was 0 the source additionally
raises the deferred event; the pending commit is modelled by a nonzero
timer in `runGroup`). -/
def onLogoPressed (now : Nat) (s : GroupState) : GroupState :=
  let s1 := if s.set then { s with group := incWrap s.group }
            else { s with set := true }
  if s1.timer = 0 then { s1 with timer := now + 1000 }
  else { s1 with timer := now + 1000 }

/-- The tail of the `control.onEvent` handler (general.ts lines
126-131), run when the busy wait `while (ETgroupTimer >
control.millis())` has expired: the group is displayed/committed and
`ETgroupTimer = 0; ETgroupSet = false`. -/
def commitGroup (s : GroupState) : GroupState :=
  { s with timer := 0, set := false }

/-- The initial group state at process start (general.ts lines
107-109): group 1, no pending deadline, settled flag down. -/
def groupInit : GroupState := ⟨1, 0, false⟩

/-- Discrete run of the debounce machine over a nondecreasing list of
gesture times.  While a deadline is pending (nonzero timer) the
deferred handler busy-waits; a gesture at or after the deadline is
therefore preceded by the commit (which records the settled group
value), while an earlier gesture merely extends the deadline.  When
the gestures end, a pending deadline eventually expires and commits.
Returns the committed group values in order plus the final state. -/
def runGroup (s : GroupState) : List Nat → List Nat × GroupState
  | [] => if s.timer = 0 then ([], s) else ([s.group], commitGroup s)
  | t :: ts =>
      if s.timer ≠ 0 ∧ s.timer ≤ t then
        let r := runGroup (onLogoPressed t (commitGroup s)) ts
        (s.group :: r.1, r.2)
      else runGroup (onLogoPressed t s) ts

/-- `General.wait` of src/main.ts (lines 424-430): the sticky
cancellation variant.  `flagAt k` is the value of the global
`WAITABORT` flag observed at the k-th poll iteration (the flag is
written between iterations only by the button handlers); `steps` is
the number of 1ms polls remaining (`sec * 1000`).  Returns the flag
value after the call together with `some k` when the wait returned
early at poll `k` (the source returns WITHOUT touching the flag), or
`none` when it ran to its deadline. -/
def waitMain (flagAt : Nat → Bool) : Nat → Nat → Bool × Option Nat
  | 0, k => (flagAt k, none)
  | steps + 1, k =>
      if flagAt k then (flagAt k, some k)
      else waitMain flagAt steps (k + 1)

/-- `General.wait` of general.ts (lines 525-534): the auto-reset
cancellation variant.  Identical to `waitMain` except that observing
the flag executes `ETwaitAbort = false` before returning, so after an
early return the flag is down. -/
def waitPart (flagAt : Nat → Bool) : Nat → Nat → Bool × Option Nat
  | 0, k => (flagAt k, none)
  | steps + 1, k =>
      if flagAt k then (false, some k)
      else waitPart flagAt steps (k + 1)

/-- `General.waitUntil` of src/main.ts (lines 415-420).  The `state`
parameter is a BOOLEAN, evaluated once at the call site; the loop
`while (!state)` re-tests the same value forever, checking only the
cancellation flag each iteration.  `fuel` bounds how many iterations
are observed; `none` means the loop was still running after `fuel`
polls.  Returns `some k` when the call returned after `k` polls. -/
def waitUntilMain (state : Bool) (flagAt : Nat → Bool) : Nat → Nat → Option Nat
  | 0, _ => none
  | fuel + 1, k =>
      if state = false then
        if flagAt k then some k else waitUntilMain state flagAt fuel (k + 1)
      else some k

/-- The call never returns, whatever finite number of polls one
observes. -/
def waitUntilDiverges (state : Bool) (flagAt : Nat → Bool) : Prop :=
  ∀ fuel k, waitUntilMain state flagAt fuel k = none

/-- A time-varying condition that is false at the moment of the call
and true from the next millisecond on: the shape of condition the
claim says `waitUntil` keeps polling. -/
def laterTrue : Nat → Bool := fun t => decide (1 ≤ t)

def regWitnessState : RadioState Nat := ⟨[['a', 'b']], [[]], [some 3], none⟩

def rtRegistry : RadioState Nat := ⟨[['0', '1']], [[]], [some 0], some 1⟩

def noFallbackState : RadioState Nat := ⟨[], [], [], none⟩

def okHandlerState : RadioState Nat := ⟨[['0', '1']], [[]], [some 2], some 9⟩

def emptyFallbackState : RadioState Nat := ⟨[], [], [], some 0⟩

theorem jsSubstr_nat (s : List Char) (a b : Nat) :
    jsSubstr s (a : Int) (b : Int) = (s.drop a).take b := by
  unfold jsSubstr
  have ha : ¬ ((a : Int) < 0) := by omega
  simp only [ha, if_false]
  by_cases hab : a ≤ s.length
  · have h1 : (min (max (b : Int) 0) ((s.length : Int) - a)).toNat
        = min b (s.length - a) := by omega
    have h2 : ((a : Int)).toNat = a := by omega
    rw [h1, h2]
    rcases le_or_lt b (s.length - a) with h | h
    · rw [min_eq_left h]
    · rw [min_eq_right (le_of_lt h)]
      have hlen : (s.drop a).length = s.length - a := by simp
      rw [List.take_of_length_le (by omega), List.take_of_length_le (by omega)]
  · have hdrop : s.drop a = [] := List.drop_eq_nil_of_le (by omega)
    have h1 : (min (max (b : Int) 0) ((s.length : Int) - a)).toNat ≤ s.length - a := by
      omega
    simp only [Int.toNat_natCast, hdrop, List.take_nil]

theorem jsSubstr_nonpos (s : List Char) (a : Int) (b : Int) (hb : b ≤ 0) :
    jsSubstr s a b = [] := by
  unfold jsSubstr
  have : (min (max b 0) ((s.length : Int) - (if a < 0 then max ((s.length : Int) + a) 0 else a))).toNat = 0 := by
    have hst : 0 ≤ (if a < 0 then max ((s.length : Int) + a) 0 else a) ∨
        (if a < 0 then max ((s.length : Int) + a) 0 else a) = a := by
      split <;> omega
    omega
  simp only [this, List.take_zero]

theorem drop_pred_eq_getLast (s : List Char) (h : s ≠ []) :
    s.drop (s.length - 1) = [s.getLast h] := by
  have hl : 0 < s.length := List.length_pos.mpr h
  have h1 : s.length - 1 < s.length := by omega
  rw [List.drop_eq_getElem_cons h1]
  have h2 : s.drop (s.length - 1 + 1) = [] := List.drop_eq_nil_of_le (by omega)
  rw [h2, List.getLast_eq_getElem]

theorem jsSubstrEnd_last (s : List Char) (h : s ≠ []) :
    jsSubstrEnd s ((s.length : Int) - 1) = [s.getLast h] := by
  unfold jsSubstrEnd
  have hl : 0 < s.length := List.length_pos.mpr h
  have h1 : ((s.length : Int) - 1) = ((s.length - 1 : Nat) : Int) := by omega
  rw [h1, jsSubstr_nat, drop_pred_eq_getLast s h]
  exact List.take_of_length_le (by simp; omega)

theorem idStr_length (id : Int) (h0 : 0 < id) (h1 : id < 100) :
    (idStr id).length = 2 := by
  have hb : ∀ n : Nat, n < 100 → 0 < n →
      (Nat.toDigits 10 n).length = (if n < 10 then 1 else 2) := by decide
  unfold idStr
  by_cases h : id < 10
  · rw [if_pos h]
    have h2 := hb id.toNat (by omega) (by omega)
    have h3 : id.toNat < 10 := by omega
    rw [if_pos h3] at h2
    simp [h2]
  · rw [if_neg h]
    have h2 := hb id.toNat (by omega) (by omega)
    have h3 : ¬ id.toNat < 10 := by omega
    rw [if_neg h3] at h2
    exact h2

theorem sendChunksGo_ne_nil (idstr : List Char) (fuel : Nat) (msg : List Char)
    (h : 0 < fuel) : sendChunksGo idstr fuel msg ≠ [] := by
  cases fuel with
  | zero => omega
  | succ f => simp [sendChunksGo]

theorem sendChunksGo_len_le (idstr : List Char) (hid : idstr.length = 2) :
    ∀ (fuel : Nat) (msg : List Char), ∀ u ∈ sendChunksGo idstr fuel msg,
      u.length ≤ 19 := by
  intro fuel
  induction fuel with
  | zero => intro msg u hu; simp [sendChunksGo] at hu
  | succ f ih =>
      intro msg u hu
      simp only [sendChunksGo, List.mem_cons] at hu
      rcases hu with h | h
      · subst h
        simp only [List.length_append, hid]
        split
        · simp only [List.length_append, List.length_singleton]
          have : (msg.take 17).length ≤ 17 := by simp
          omega
        · have : (msg.take 17).length ≤ 17 := by simp
          omega
      · by_cases hr : 0 < (msg.drop 17).length
        · rw [if_pos hr] at h
          exact ih (msg.drop 17) u h
        · rw [if_neg hr] at h
          simp at h

theorem sendChunksGo_spec (idstr : List Char) (hid : idstr.length = 2) :
    ∀ (fuel : Nat) (msg : List Char), msg.length < fuel →
      (sendChunksGo idstr fuel msg).length = (max msg.length 1 + 16) / 17 ∧
      (∀ u ∈ (sendChunksGo idstr fuel msg).dropLast, u.length = 19) ∧
      (sendChunksGo idstr fuel msg).getLast?.map List.length =
        some (if msg.length = 0 then 3
              else if msg.length % 17 = 0 then 19
              else 2 + msg.length % 17 + 1) := by
  intro fuel
  induction fuel with
  | zero => intro msg h; omega
  | succ f ih =>
      intro msg hlen
      by_cases hr : 0 < (msg.drop 17).length
      · -- more than 17 characters: a full 19-character unit, then recurse
        have hm17 : 17 < msg.length := by
          have := List.length_drop 17 msg; omega
        have htk : (msg.take 17).length = 17 := by simp; omega
        have hdl : (msg.drop 17).length = msg.length - 17 := by simp
        have hrec := ih (msg.drop 17) (by omega)
        simp only [sendChunksGo, if_pos hr, htk, lt_irrefl, if_false]
        have hne : sendChunksGo idstr f (msg.drop 17) ≠ [] :=
          sendChunksGo_ne_nil idstr f (msg.drop 17) (by omega)
        refine ⟨?_, ?_, ?_⟩
        · simp only [List.length_cons, hrec.1, hdl]
          have h17 : (0:Nat) < 17 := by norm_num
          have := Nat.add_div_right (msg.length - 17 + 16) h17
          have heq : msg.length - 17 + 16 + 17 = msg.length + 16 := by omega
          rw [heq] at this
          rw [max_eq_left (by omega), max_eq_left (by omega)]
          omega
        · intro u hu
          rw [List.dropLast_cons_of_ne_nil hne] at hu
          rcases List.mem_cons.mp hu with h | h
          · subst h; simp [List.length_append, hid, htk]
          · exact hrec.2.1 u h
        · cases hsl : sendChunksGo idstr f (msg.drop 17) with
          | nil => exact absurd hsl hne
          | cons a l =>
              rw [List.getLast?_cons_cons]
              rw [hsl] at hrec
              rw [hrec.2.2]
              have hmod : (msg.drop 17).length % 17 = msg.length % 17 := by
                rw [hdl]; omega
              have hnz : (msg.drop 17).length ≠ 0 := by omega
              rw [if_neg hnz, hmod, if_neg (show ¬ msg.length = 0 by omega)]
      · -- at most 17 characters: a single unit
        have hle : msg.length ≤ 17 := by
          have := List.length_drop 17 msg; omega
        have htk : msg.take 17 = msg := List.take_of_length_le hle
        simp only [sendChunksGo, if_neg hr, htk]
        by_cases hfull : msg.length < 17
        · rw [if_pos hfull]
          refine ⟨?_, ?_, ?_⟩
          · simp only [List.length_cons, List.length_nil]
            rcases Nat.eq_zero_or_pos msg.length with h | h
            · rw [h]; norm_num
            · rw [max_eq_left (by omega)]; omega
          · intro u hu; simp at hu
          · simp only [List.getLast?_singleton, Option.map_some',
              List.length_append, List.length_append, hid, List.length_singleton]
            by_cases h0 : msg.length = 0
            · rw [if_pos h0, h0]
            · rw [if_neg h0, if_neg (by omega : ¬ msg.length % 17 = 0)]
              rw [Nat.mod_eq_of_lt hfull]
              exact congrArg some (by omega)
        · rw [if_neg hfull]
          have h17 : msg.length = 17 := by omega
          refine ⟨?_, ?_, ?_⟩
          · simp only [List.length_cons, List.length_nil, h17]
            norm_num
          · intro u hu; simp at hu
          · simp only [List.getLast?_singleton, Option.map_some',
              List.length_append, hid, h17]
            norm_num

theorem onLogoPressed_settled (t g tm : Nat) :
    onLogoPressed t ⟨g, tm, true⟩ = ⟨incWrap g, t + 1000, true⟩ := by
  simp [onLogoPressed, ite_self]

theorem onLogoPressed_unsettled (t g tm : Nat) :
    onLogoPressed t ⟨g, tm, false⟩ = ⟨g, t + 1000, true⟩ := by
  simp [onLogoPressed, ite_self]

theorem runGroup_pending :
    ∀ (ts : List Nat) (tp g : Nat), List.Chain (fun a b => b < a + 1000) tp ts →
      runGroup ⟨g, tp + 1000, true⟩ ts =
        ([incWrap^[ts.length] g], ⟨incWrap^[ts.length] g, 0, false⟩) := by
  intro ts
  induction ts with
  | nil =>
      intro tp g _
      simp [runGroup, commitGroup]
  | cons t ts ih =>
      intro tp g hch
      cases hch with
      | cons hlt hch' =>
          rw [runGroup]
          rw [if_neg (by simp; omega)]
          rw [onLogoPressed_settled, ih t (incWrap g) hch']
          simp [Function.iterate_succ_apply]

theorem waitMain_early (flagAt : Nat → Bool) :
    ∀ (steps k j : Nat), (waitMain flagAt steps k).2 = some j →
      (waitMain flagAt steps k).1 = true := by
  intro steps
  induction steps with
  | zero => intro k j h; simp [waitMain] at h
  | succ s ih =>
      intro k j h
      by_cases hf : flagAt k
      · simp [waitMain, hf]
      · simp only [waitMain, hf, Bool.false_eq_true, if_false] at h ⊢
        exact ih (k + 1) j h

theorem waitPart_early (flagAt : Nat → Bool) :
    ∀ (steps k j : Nat), (waitPart flagAt steps k).2 = some j →
      (waitPart flagAt steps k).1 = false := by
  intro steps
  induction steps with
  | zero => intro k j h; simp [waitPart] at h
  | succ s ih =>
      intro k j h
      by_cases hf : flagAt k
      · simp [waitPart, hf]
      · simp only [waitPart, hf, Bool.false_eq_true, if_false] at h ⊢
        exact ih (k + 1) j h

theorem waitPart_never_none :
    ∀ (steps k : Nat), (waitPart (fun _ => false) steps k).2 = none := by
  intro steps
  induction steps with
  | zero => intro k; simp [waitPart]
  | succ s ih => intro k; simpa [waitPart] using ih (k + 1)

theorem waitPart_finds (flagAt : Nat → Bool) :
    ∀ (steps i k : Nat), i ≤ k → k < i + steps → flagAt k = true →
      ∃ j, i ≤ j ∧ j ≤ k ∧ (waitPart flagAt steps i).2 = some j := by
  intro steps
  induction steps with
  | zero => intro i k h1 h2 _; omega
  | succ s ih =>
      intro i k h1 h2 h3
      by_cases hf : flagAt i
      · exact ⟨i, le_refl i, h1, by simp [waitPart, hf]⟩
      · have hik : i ≠ k := by
          intro he; rw [he, h3] at hf; exact hf rfl
        obtain ⟨j, hj1, hj2, hj3⟩ := ih (i + 1) k (by omega) (by omega) h3
        refine ⟨j, by omega, hj2, ?_⟩
        simpa [waitPart, hf, Bool.false_eq_true] using hj3

theorem waitMain_finds (flagAt : Nat → Bool) :
    ∀ (steps i k : Nat), i ≤ k → k < i + steps → flagAt k = true →
      ∃ j, i ≤ j ∧ j ≤ k ∧ (waitMain flagAt steps i).2 = some j := by
  intro steps
  induction steps with
  | zero => intro i k h1 h2 _; omega
  | succ s ih =>
      intro i k h1 h2 h3
      by_cases hf : flagAt i
      · exact ⟨i, le_refl i, h1, by simp [waitMain, hf]⟩
      · have hik : i ≠ k := by
          intro he; rw [he, h3] at hf; exact hf rfl
        obtain ⟨j, hj1, hj2, hj3⟩ := ih (i + 1) k (by omega) (by omega) h3
        refine ⟨j, by omega, hj2, ?_⟩
        simpa [waitMain, hf, Bool.false_eq_true] using hj3

theorem waitUntilMain_of_true (flagAt : Nat → Bool) (fuel k : Nat) (h : 0 < fuel) :
    waitUntilMain true flagAt fuel k = some k := by
  cases fuel with
  | zero => omega
  | succ f => simp [waitUntilMain]

theorem waitUntilMain_false_some (flagAt : Nat → Bool) :
    ∀ (fuel k j : Nat), waitUntilMain false flagAt fuel k = some j →
      flagAt j = true ∧ k ≤ j := by
  intro fuel
  induction fuel with
  | zero => intro k j h; simp [waitUntilMain] at h
  | succ f ih =>
      intro k j h
      by_cases hf : flagAt k
      · simp only [waitUntilMain, if_pos rfl, hf, if_true, Option.some.injEq] at h
        subst h; exact ⟨hf, le_refl k⟩
      · simp only [waitUntilMain, if_pos rfl, hf, Bool.false_eq_true, if_false] at h
        obtain ⟨h1, h2⟩ := ih (k + 1) j h
        exact ⟨h1, by omega⟩

theorem waitUntilMain_false_finds (flagAt : Nat → Bool) :
    ∀ (fuel k j : Nat), k ≤ j → j < k + fuel → flagAt j = true →
      ∃ m, k ≤ m ∧ m ≤ j ∧ waitUntilMain false flagAt fuel k = some m := by
  intro fuel
  induction fuel with
  | zero => intro k j h1 h2 _; omega
  | succ f ih =>
      intro k j h1 h2 h3
      by_cases hf : flagAt k
      · exact ⟨k, le_refl k, h1, by simp [waitUntilMain, hf]⟩
      · have hkj : k ≠ j := by
          intro he; rw [he, h3] at hf; exact hf rfl
        obtain ⟨m, hm1, hm2, hm3⟩ := ih (k + 1) j (by omega) (by omega) h3
        refine ⟨m, by omega, hm2, ?_⟩
        simpa [waitUntilMain, hf, Bool.false_eq_true] using hm3

theorem waitUntilMain_never (flagAt : Nat → Bool) (hnever : ∀ k, flagAt k = false) :
    waitUntilDiverges false flagAt := by
  intro fuel
  induction fuel with
  | zero => intro k; simp [waitUntilMain]
  | succ f ih =>
      intro k
      simp only [waitUntilMain, if_pos rfl, hnever k, Bool.false_eq_true, if_false]
      exact ih (k + 1)

theorem jsSubstr_take2 (idstr r : List Char) (h : idstr.length = 2) :
    jsSubstr (idstr ++ r) 0 2 = idstr := by
  rw [show ((0 : Int)) = ((0 : Nat) : Int) from rfl,
    show ((2 : Int)) = ((2 : Nat) : Int) from rfl, jsSubstr_nat]
  rw [List.drop_zero]
  exact List.take_left' h

theorem recvEndOf_concat (u : List Char) :
    recvEndOf (u ++ ['~']) = true := by
  unfold recvEndOf
  have hne : u ++ ['~'] ≠ [] := by simp
  rw [jsSubstrEnd_last _ hne]
  rw [List.getLast_append' u ['~'] (by simp)]
  simp

theorem recvEndOf_no_tilde (msg : List Char) (hne : msg ≠ [])
    (h : msg.getLast hne ≠ '~') : recvEndOf msg = false := by
  unfold recvEndOf
  rw [jsSubstrEnd_last msg hne]
  simpa using h

theorem recvChunkOf_final (idstr c : List Char) (hid : idstr.length = 2) :
    recvChunkOf (idstr ++ c ++ ['~']) = c := by
  unfold recvChunkOf
  rw [recvEndOf_concat (idstr ++ c)]
  simp only [if_true]
  have hlen : (((idstr ++ c ++ ['~']).length : Int)) - 3 = ((c.length : Nat) : Int) := by
    simp [List.length_append, hid]
    omega
  rw [hlen, show ((2 : Int)) = ((2 : Nat) : Int) from rfl, jsSubstr_nat]
  rw [List.append_assoc, List.drop_left' hid]
  exact List.take_left' rfl

theorem recvChunkOf_full (idstr c : List Char) (hid : idstr.length = 2)
    (hne : c ≠ []) (hlast : c.getLast hne ≠ '~') :
    recvChunkOf (idstr ++ c) = c := by
  unfold recvChunkOf
  have hne2 : idstr ++ c ≠ [] := by simp [hne]
  have hend : recvEndOf (idstr ++ c) = false := by
    apply recvEndOf_no_tilde _ hne2
    rw [List.getLast_append' idstr c hne]
    exact hlast
  rw [hend]
  simp only [Bool.false_eq_true, if_false]
  have hlen : (((idstr ++ c).length : Int)) - 2 = ((c.length : Nat) : Int) := by
    simp [List.length_append, hid]
  rw [hlen, show ((2 : Int)) = ((2 : Nat) : Int) from rfl, jsSubstr_nat,
    List.drop_left' hid]
  exact List.take_of_length_le (le_refl _)

theorem recvRoute_found {κ : Type} (st : RadioState κ) (idstr chunk : List Char)
    (msgend : Bool) (hix : findIdIdx st.ids idstr < st.ids.length) :
    recvRoute st idstr chunk msgend =
      deliverStep st (findIdIdx st.ids idstr) chunk msgend := by
  unfold recvRoute
  rw [if_neg (by omega)]

theorem deliverStep_final {κ : Type} (st : RadioState κ) (ix : Nat)
    (chunk : List Char) (f : κ) (hh : st.handlers.getD ix none = some f) :
    deliverStep st ix chunk true =
      .ok { st with msgs := st.msgs.set ix [] }
        [(f, st.msgs.getD ix [] ++ chunk)] := by
  unfold deliverStep
  simp only [hh, if_true, List.set_set]

theorem deliverStep_notfinal {κ : Type} (st : RadioState κ) (ix : Nat)
    (chunk : List Char) :
    deliverStep st ix chunk false =
      .ok { st with msgs := st.msgs.set ix (st.msgs.getD ix [] ++ chunk) } [] := by
  unfold deliverStep
  simp

theorem getD_set_self {α : Type} (l : List α) (i : Nat) (v d : α)
    (h : i < l.length) : (l.set i v).getD i d = v := by
  rw [List.getD_eq_getElem?_getD, List.getElem?_eq_getElem (by simpa using h)]
  simp

theorem onReceivedString_full_unit {κ : Type} (st : RadioState κ)
    (idstr c : List Char) (hid : idstr.length = 2) (ix : Nat)
    (hfind : findIdIdx st.ids idstr = ix) (hix : ix < st.ids.length)
    (hne : c ≠ []) (hlast : c.getLast hne ≠ '~') :
    onReceivedString st (idstr ++ c) =
      .ok { st with msgs := st.msgs.set ix (st.msgs.getD ix [] ++ c) } [] := by
  unfold onReceivedString
  rw [jsSubstr_take2 _ _ hid]
  rw [recvChunkOf_full idstr c hid hne hlast]
  rw [recvEndOf_no_tilde _ (by simp [hne])
    (by rw [List.getLast_append' idstr c hne]; exact hlast)]
  rw [recvRoute_found st idstr c false (by rw [hfind]; exact hix)]
  rw [hfind]
  exact deliverStep_notfinal st ix c

theorem onReceivedString_final_unit {κ : Type} (st : RadioState κ)
    (idstr c : List Char) (hid : idstr.length = 2) (ix : Nat) (f : κ)
    (hfind : findIdIdx st.ids idstr = ix) (hix : ix < st.ids.length)
    (hh : st.handlers.getD ix none = some f) :
    onReceivedString st (idstr ++ c ++ ['~']) =
      .ok { st with msgs := st.msgs.set ix [] }
        [(f, st.msgs.getD ix [] ++ c)] := by
  unfold onReceivedString
  rw [recvChunkOf_final idstr c hid]
  rw [recvEndOf_concat (idstr ++ c)]
  rw [show idstr ++ c ++ ['~'] = idstr ++ (c ++ ['~']) from List.append_assoc ..]
  rw [jsSubstr_take2 _ _ hid]
  rw [recvRoute_found st idstr c true (by rw [hfind]; exact hix)]
  rw [hfind]
  exact deliverStep_final st ix c f hh

theorem runReceive_cons_ok {κ : Type} (st st₁ : RadioState κ) (u : List Char)
    (us : List (List Char)) (ds : List (κ × List Char))
    (h : onReceivedString st u = .ok st₁ ds) :
    runReceive st (u :: us) = (runReceive st₁ us).map (fun p => (p.1, ds ++ p.2)) := by
  rw [runReceive, h]

theorem recv_go {κ : Type} (idstr : List Char) (hid : idstr.length = 2)
    (ix : Nat) (f : κ) :
    ∀ (fuel : Nat) (st : RadioState κ) (acc msg : List Char),
      msg.length < fuel →
      findIdIdx st.ids idstr = ix →
      ix < st.ids.length →
      st.msgs.length = st.ids.length →
      st.handlers.getD ix none = some f →
      st.msgs.getD ix [] = acc →
      '~' ∉ msg →
      (msg.length % 17 ≠ 0 ∨ msg = []) →
      runReceive st (sendChunksGo idstr fuel msg) =
        some ({ st with msgs := st.msgs.set ix [] }, [(f, acc ++ msg)]) := by
  intro fuel
  induction fuel with
  | zero => intro st acc msg h _ _ _ _ _ _ _; omega
  | succ F ih =>
      intro st acc msg hlen hfind hix hwf hh hacc htld hmod
      by_cases hr : 0 < (msg.drop 17).length
      · -- a full 17-character chunk, then the rest of the message
        have hm17 : 17 < msg.length := by
          have := List.length_drop 17 msg; omega
        have htk17 : (msg.take 17).length = 17 := by simp; omega
        have hne : msg.take 17 ≠ [] := by
          intro h; rw [h] at htk17; simp at htk17
        have hlast : (msg.take 17).getLast hne ≠ '~' := by
          intro h
          exact htld (List.mem_of_mem_take (h ▸ List.getLast_mem hne))
        simp only [sendChunksGo, htk17, lt_irrefl, if_false, if_pos hr]
        rw [runReceive_cons_ok st _ _ _ []
          (onReceivedString_full_unit st idstr (msg.take 17) hid ix hfind hix hne hlast)]
        rw [hacc]
        rw [ih { st with msgs := st.msgs.set ix (acc ++ msg.take 17) }
          (acc ++ msg.take 17) (msg.drop 17)
          (by simp; omega)
          hfind hix
          (by simpa using hwf)
          hh
          (getD_set_self _ _ _ _ (by rw [hwf]; exact hix))
          (fun h => htld (List.mem_of_mem_drop h))
          (by
            rcases hmod with h | h
            · left; simp; omega
            · rw [h] at hm17; simp at hm17)]
        simp only [Option.map_some', List.nil_append, List.set_set]
        rw [List.append_assoc, List.take_append_drop]
  
      · -- the final, shorter-than-17 chunk with the terminator
        have hle : msg.length ≤ 17 := by
          have := List.length_drop 17 msg; omega
        have hlt : msg.length < 17 := by
          rcases hmod with h | h
          · omega
          · rw [h]; simp
        have htk : msg.take 17 = msg := List.take_of_length_le (by omega)
        simp only [sendChunksGo, if_neg hr, htk, if_pos hlt]
        rw [show idstr ++ (msg ++ ['~']) = idstr ++ msg ++ ['~'] from
          (List.append_assoc ..).symm]
        rw [runReceive_cons_ok st _ _ _ [(f, st.msgs.getD ix [] ++ msg)]
          (onReceivedString_final_unit st idstr msg hid ix f hfind hix hh)]
        rw [runReceive]
        simp only [Option.map_some', List.append_nil, hacc]

theorem normalizeId_long (c₁ c₂ c₃ : Char) (r : List Char) :
    normalizeId (c₁ :: c₂ :: c₃ :: r) = [c₁, c₂] := by
  show jsSubstr (c₁ :: c₂ :: c₃ :: r) 0 2 = [c₁, c₂]
  exact jsSubstr_take2 [c₁, c₂] (c₃ :: r) rfl

theorem normalizeId_length (id : List Char) : (normalizeId id).length = 2 := by
  rcases id with _ | ⟨c₁, _ | ⟨c₂, _ | ⟨c₃, r⟩⟩⟩
  · rfl
  · rfl
  · rfl
  · rw [normalizeId_long]
    rfl

/-- Claim C3, counterexample: for a message of length exactly 17 the
code emits a single unit of length 19 and NO terminator, while the
claimed formula 2 + 17 + 1 demands length 20. -/
theorem C3_counterexample :
    (sendRadioMessage (List.replicate 17 'a') 1).map List.length = [19] ∧
    (19 : Nat) ≠ 2 + 17 + 1 := ⟨rfl, by decide⟩

/-- Claim C3, amended: `sendRadioMessage` emits
ceil(max(len,1)/17) units; all non-last units have length 19; the
last unit has length 2 + (len mod 17) + 1 including the terminator
when len mod 17 is nonzero, length 3 for the empty message, and
length 19 WITHOUT a terminator when len is a positive multiple
of 17. -/
theorem C3_units_amended (msg : List Char) (id : Int) (h0 : 0 < id)
    (h1 : id < 100) :
    (sendRadioMessage msg id).length = (max msg.length 1 + 16) / 17 ∧
    (∀ u ∈ (sendRadioMessage msg id).dropLast, u.length = 19) ∧
    (sendRadioMessage msg id).getLast?.map List.length =
      some (if msg.length = 0 then 3
            else if msg.length % 17 = 0 then 19
            else 2 + msg.length % 17 + 1) := by
  unfold sendRadioMessage
  rw [if_neg (by omega)]
  exact sendChunksGo_spec (idStr id) (idStr_length id h0 h1) (msg.length + 1) msg
    (by omega)

theorem C3_witness :
    (sendRadioMessage ['h', 'i'] 7).length = 1 ∧
    (sendRadioMessage ['h', 'i'] 7).getLast?.map List.length = some 5 := by
  have h := C3_units_amended ['h', 'i'] 7 (by norm_num) (by norm_num)
  exact ⟨by rw [h.1]; decide, by rw [h.2.2]; decide⟩

/-- Claim C7: every transmission unit emitted by `sendRadioMessage`
has length at most 19 characters. -/
theorem C7_unit_length_bound (msg : List Char) (id : Int) (u : List Char)
    (hu : u ∈ sendRadioMessage msg id) : u.length ≤ 19 := by
  unfold sendRadioMessage at hu
  by_cases h : id ≤ 0 ∨ 100 ≤ id
  · rw [if_pos h] at hu
    simp at hu
  · rw [if_neg h] at hu
    exact sendChunksGo_len_le (idStr id)
      (idStr_length id (by omega) (by omega)) _ _ u hu

theorem C7_witness : (['0', '7', 'h', 'i', '~'] : List Char).length ≤ 19 :=
  C7_unit_length_bound ['h', 'i'] 7 ['0', '7', 'h', 'i', '~'] (by decide)

/-- Claim C8: `registerMessageHandler` normalizes the id to exactly
two characters (empty becomes the literal ET, one character is padded
with the filler, longer ids are truncated to their first two), appends
a new entry with an empty accumulator, and returns the ordinal index
of the new entry; every id it stores has length exactly two. -/
theorem C8_register_normalizes {κ : Type} (st : RadioState κ) (id : List Char)
    (hnd : Option κ) :
    (registerMessageHandler st id hnd).1.ids = st.ids ++ [normalizeId id] ∧
    (registerMessageHandler st id hnd).1.msgs = st.msgs ++ [[]] ∧
    (registerMessageHandler st id hnd).1.handlers = st.handlers ++ [hnd] ∧
    (registerMessageHandler st id hnd).2 = st.handlers.length ∧
    normalizeId [] = ['E', 'T'] ∧
    (∀ c, normalizeId [c] = [c, '#']) ∧
    (∀ c₁ c₂, normalizeId [c₁, c₂] = [c₁, c₂]) ∧
    (∀ c₁ c₂ c₃ r, normalizeId (c₁ :: c₂ :: c₃ :: r) = [c₁, c₂]) ∧
    (normalizeId id).length = 2 ∧
    (∀ x, x ∈ (registerMessageHandler st id hnd).1.ids →
      x ∈ st.ids ∨ x.length = 2) := by
  refine ⟨rfl, rfl, rfl, by simp [registerMessageHandler], rfl,
    fun c => rfl, fun c₁ c₂ => rfl,
    fun c₁ c₂ c₃ r => normalizeId_long c₁ c₂ c₃ r,
    normalizeId_length id, ?_⟩
  intro x hx
  have hx' : x ∈ st.ids ++ [normalizeId id] := hx
  rcases List.mem_append.mp hx' with h | h
  · exact Or.inl h
  · right
    rw [List.mem_singleton.mp h]
    exact normalizeId_length id

theorem C8_witness :
    (registerMessageHandler regWitnessState ['q'] (some 7)).1.ids =
      [['a', 'b'], ['q', '#']] ∧
    (['q', '#'] ∈ regWitnessState.ids ∨ (['q', '#'] : List Char).length = 2) := by
  have h := C8_register_normalizes regWitnessState ['q'] (some 7)
  constructor
  · rw [h.1]
    decide
  · exact h.2.2.2.2.2.2.2.2.2 ['q', '#'] (by rw [h.1]; decide)

/-- Claim C9: the src/main.ts wait is the sticky variant (an early
return because the flag was observed true leaves the flag true), the
general.ts wait is the auto-reset variant (an early return resets the
flag to false before returning), and after a reset a wait over a clear
flag never aborts again. -/
theorem C9_flag_variants :
    (∀ (flagAt : Nat → Bool) (steps k j : Nat),
      (waitMain flagAt steps k).2 = some j → (waitMain flagAt steps k).1 = true) ∧
    (∀ (flagAt : Nat → Bool) (steps k j : Nat),
      (waitPart flagAt steps k).2 = some j → (waitPart flagAt steps k).1 = false) ∧
    (∀ (steps k : Nat), (waitPart (fun _ => false) steps k).2 = none) :=
  ⟨fun fl s k j h => waitMain_early fl s k j h,
   fun fl s k j h => waitPart_early fl s k j h,
   waitPart_never_none⟩

theorem C9_witness :
    (waitMain (fun t => decide (t = 0)) 5 0).1 = true ∧
    (waitPart (fun t => decide (t = 0)) 5 0).1 = false ∧
    (waitPart (fun _ => false) 5 0).2 = none :=
  ⟨C9_flag_variants.1 _ 5 0 0 (by decide),
   C9_flag_variants.2.1 _ 5 0 0 (by decide),
   C9_flag_variants.2.2 5 0⟩

/-- Claim C10: if the cancellation flag becomes true at poll `k`
during a five-second wait (5000 one-millisecond polls), both wait
variants return at some poll no later than `k`, instead of running the
full 5000 polls. -/
theorem C10_wait_responsive (flagAt : Nat → Bool) (k : Nat)
    (hk : k < 5000) (hf : flagAt k = true) :
    (∃ j, j ≤ k ∧ (waitPart flagAt 5000 0).2 = some j) ∧
    (∃ j, j ≤ k ∧ (waitMain flagAt 5000 0).2 = some j) := by
  obtain ⟨j, h1, h2, h3⟩ := waitPart_finds flagAt 5000 0 k (by omega) (by omega) hf
  obtain ⟨j', h1', h2', h3'⟩ := waitMain_finds flagAt 5000 0 k (by omega) (by omega) hf
  exact ⟨⟨j, h2, h3⟩, ⟨j', h2', h3'⟩⟩

theorem C10_witness :
    (∃ j, j ≤ 3 ∧ (waitPart (fun t => decide (t = 3)) 5000 0).2 = some j) ∧
    (∃ j, j ≤ 3 ∧ (waitMain (fun t => decide (t = 3)) 5000 0).2 = some j) :=
  C10_wait_responsive (fun t => decide (t = 3)) 3 (by decide) (by decide)

/-- Claim C4, counterexample: a condition that is false at the call
but true from the next instant on does not make `waitUntil` return:
the boolean argument is evaluated once, so the call diverges (when the
cancellation flag stays clear), contradicting the claim that the call
returns whenever its condition later becomes true. -/
theorem C4_counterexample :
    laterTrue 1 = true ∧ waitUntilDiverges (laterTrue 0) (fun _ => false) := by
  constructor
  · decide
  · have h0 : laterTrue 0 = false := by decide
    rw [h0]
    exact waitUntilMain_never _ (fun k => rfl)

/-- Claim C4, amended: `waitUntil` returns immediately when its
once-evaluated boolean argument is true; when the argument is false
the call returns only at a poll where the cancellation flag is
observed true, a flag set at some poll within the observation window
DOES make the call return, no later than that poll (so at the first
flag-observing poll), and the call diverges when the flag is never
set — the condition itself is never re-evaluated. -/
theorem C4_waitUntil_amended (flagAt : Nat → Bool) :
    (∀ (fuel k : Nat), 0 < fuel → waitUntilMain true flagAt fuel k = some k) ∧
    (∀ (fuel k j : Nat), waitUntilMain false flagAt fuel k = some j →
      flagAt j = true ∧ k ≤ j) ∧
    (∀ (fuel k j : Nat), k ≤ j → j < k + fuel → flagAt j = true →
      ∃ m, k ≤ m ∧ m ≤ j ∧ waitUntilMain false flagAt fuel k = some m) ∧
    ((∀ k, flagAt k = false) → waitUntilDiverges false flagAt) :=
  ⟨fun fuel k h => waitUntilMain_of_true flagAt fuel k h,
   fun fuel k j h => waitUntilMain_false_some flagAt fuel k j h,
   fun fuel k j h1 h2 h3 => waitUntilMain_false_finds flagAt fuel k j h1 h2 h3,
   fun h => waitUntilMain_never flagAt h⟩

theorem C4_witness :
    waitUntilMain true (fun _ => false) 1 0 = some 0 ∧
    ((fun t => decide (t = 2)) 2 = true ∧ (0 : Nat) ≤ 2) ∧
    (∃ m, 0 ≤ m ∧ m ≤ 2 ∧
      waitUntilMain false (fun t => decide (t = 2)) 10 0 = some m) ∧
    waitUntilMain false (fun _ => false) 7 4 = none :=
  ⟨(C4_waitUntil_amended (fun _ => false)).1 1 0 (by decide),
   (C4_waitUntil_amended (fun t => decide (t = 2))).2.1 10 0 2 (by decide),
   (C4_waitUntil_amended (fun t => decide (t = 2))).2.2.1 10 0 2 (by decide)
     (by decide) (by decide),
   (C4_waitUntil_amended (fun _ => false)).2.2.2 (fun k => rfl) 7 4⟩

/-- Claim C2, counterexample: two single-gesture bursts from the
startup state (group 1).  The commit after the first burst resets the
settled flag, so the gesture of the SECOND burst does not increment
either: the machine commits group 1 twice, while the claim (increment
on every gesture after the first-ever one) predicts commits 1 then
2. -/
theorem C2_counterexample :
    (runGroup groupInit [0, 2000]).1 = [1, 1] ∧ ([1, 1] : List Nat) ≠ [1, 2] :=
  ⟨rfl, by decide⟩

/-- Claim C2, amended: from any idle, unsettled state (which holds at
startup and is restored by every commit), a burst of gestures each
arriving within 1000ms of the previous one commits exactly one
notification; the first gesture of the burst does not increment the
group (it only raises the settled flag), each later gesture increments
it by one wrapping 9 to 1, and the commit leaves the machine idle and
unsettled again, so the first gesture of EVERY burst (not only the
first-ever one) is increment-free. -/
theorem C2_burst_amended (s : GroupState) (t0 : Nat) (ts : List Nat)
    (hidle : s.timer = 0) (hset : s.set = false)
    (hchain : List.Chain (fun a b => b < a + 1000) t0 ts) :
    runGroup s (t0 :: ts) =
      ([incWrap^[ts.length] s.group], ⟨incWrap^[ts.length] s.group, 0, false⟩) := by
  rw [runGroup]
  rw [if_neg (by rw [hidle]; simp)]
  have h1 : onLogoPressed t0 s = ⟨s.group, t0 + 1000, true⟩ := by
    obtain ⟨g, tm, b⟩ := s
    simp only at hidle hset
    subst hidle hset
    exact onLogoPressed_unsettled t0 g 0
  rw [h1, runGroup_pending ts t0 s.group hchain]

theorem C2_witness :
    runGroup ⟨9, 0, false⟩ [0, 500] = ([1], ⟨1, 0, false⟩) := by
  have h := C2_burst_amended ⟨9, 0, false⟩ 0 [500] rfl rfl
    (List.Chain.cons (by omega) List.Chain.nil)
  rw [h]
  decide

/-- Claim C1, counterexample: a message of 17 characters (length a
positive multiple of 17) is emitted as one full unit with no
terminator, so feeding its units into a registry where id 1 is
registered produces ZERO callback invocations instead of exactly
one. -/
theorem C1_counterexample :
    (runReceive rtRegistry (sendRadioMessage (List.replicate 17 'a') 1)).map
      Prod.snd = some [] ∧
    some ([] : List (Nat × List Char)) ≠ some [(0, List.replicate 17 'a')] :=
  ⟨rfl, by decide⟩

/-- Claim C1, amended: for every message that does not contain the
terminator tilde and whose length is not a positive multiple of 17
(and of length at most 500), sending with a valid id and feeding the
emitted units in order into a registry in which that id is registered
(fresh accumulator, well-formed parallel lists) yields exactly one
callback invocation carrying exactly the original message. -/
theorem C1_roundtrip_amended {κ : Type} (st : RadioState κ) (f : κ) (i : Int)
    (s : List Char)
    (hi0 : 0 < i) (hi1 : i < 100)
    (_hlen : s.length ≤ 500)
    (hterm : '~' ∉ s)
    (hmod : s.length % 17 ≠ 0 ∨ s = [])
    (hix : findIdIdx st.ids (idStr i) < st.ids.length)
    (hwf : st.msgs.length = st.ids.length)
    (hh : st.handlers.getD (findIdIdx st.ids (idStr i)) none = some f)
    (hacc : st.msgs.getD (findIdIdx st.ids (idStr i)) [] = []) :
    runReceive st (sendRadioMessage s i) =
      some ({ st with msgs := st.msgs.set (findIdIdx st.ids (idStr i)) [] },
        [(f, s)]) := by
  unfold sendRadioMessage
  rw [if_neg (by omega)]
  have h := recv_go (idStr i) (idStr_length i hi0 hi1)
    (findIdIdx st.ids (idStr i)) f (s.length + 1) st [] s
    (by omega) rfl hix hwf hh hacc hterm hmod
  simpa using h

theorem C1_witness :
    runReceive rtRegistry (sendRadioMessage ['h', 'i'] 1) =
      some (⟨[['0', '1']], [[]], [some 0], some 1⟩, [(0, ['h', 'i'])]) := by
  have h := C1_roundtrip_amended rtRegistry 0 1 ['h', 'i']
    (by norm_num) (by norm_num) (by norm_num) (by decide)
    (Or.inl (by decide)) (by decide) (by decide) (by decide) (by decide)
  rw [h]
  decide

theorem findIdIdx_le (ids : List (List Char)) (idstr : List Char) :
    findIdIdx ids idstr ≤ ids.length :=
  List.findIdx_le_length _

theorem getD_isSome_of_all {κ : Type} (l : List (Option κ)) (ix : Nat)
    (hall : ∀ h ∈ l, h.isSome) (hlt : ix < l.length) :
    (l.getD ix none).isSome := by
  rw [List.getD_eq_getElem?_getD, List.getElem?_eq_getElem hlt]
  simpa using hall _ (List.getElem_mem hlt)

theorem getD_append_isSome {κ : Type} (l : List (Option κ)) (a : Option κ)
    (ix : Nat) (hall : ∀ h ∈ l, h.isSome) (ha : a.isSome) (hle : ix ≤ l.length) :
    ((l ++ [a]).getD ix none).isSome := by
  rcases lt_or_eq_of_le hle with h | h
  · apply getD_isSome_of_all
    · intro x hx
      rcases List.mem_append.mp hx with hx | hx
      · exact hall x hx
      · rw [List.mem_singleton.mp hx]
        exact ha
    · simp
      omega
  · rw [List.getD_eq_getElem?_getD, h, List.getElem?_concat_length]
    simpa using ha

theorem deliverStep_ne_null {κ : Type} (st : RadioState κ) (ix : Nat)
    (chunk : List Char) (msgend : Bool)
    (h : (st.handlers.getD ix none).isSome) :
    deliverStep st ix chunk msgend ≠ .nullHandler := by
  unfold deliverStep
  cases hm : msgend
  · simp
  · cases hg : st.handlers.getD ix none with
    | none => rw [hg] at h; simp at h
    | some f => simp [hg]

/-- Claim C5, counterexample: before any fallback callback has been
installed, a complete inbound message carrying an unknown valid id
auto-registers an undefined handler and then fatally calls it — a
propagated failure, not a no-op or a delivery. -/
theorem C5_counterexample :
    onReceivedString noFallbackState ['0', '7', 'h', 'i', '~'] = .nullHandler :=
  rfl

/-- Claim C5, amended: whenever the shared fallback callback has been
installed and every registered handler is a real (non-null) callback,
with the handler list at least as long as the id list, the receive
handler never hits the fatal undefined-handler path, whatever the
inbound unit: every other invalid-input path is a no-op or a normal
delivery. -/
theorem C5_no_fatal_amended {κ : Type} (st : RadioState κ) (msg : List Char)
    (hfb : st.fallback.isSome)
    (hh : ∀ h ∈ st.handlers, h.isSome)
    (hwf : st.ids.length ≤ st.handlers.length) :
    onReceivedString st msg ≠ .nullHandler := by
  unfold onReceivedString recvRoute
  by_cases hix : findIdIdx st.ids (jsSubstr msg 0 2) = st.ids.length
  · rw [if_pos hix]
    cases hd : dropsId (jsSubstr msg 0 2)
    · simp only [Bool.false_eq_true, if_false]
      apply deliverStep_ne_null
      show ((st.handlers ++ [st.fallback]).getD
        (findIdIdx st.ids (jsSubstr msg 0 2)) none).isSome
      rw [hix]
      exact getD_append_isSome st.handlers st.fallback st.ids.length hh hfb hwf
    · simp
  · rw [if_neg hix]
    apply deliverStep_ne_null
    apply getD_isSome_of_all _ _ hh
    have h1 := findIdIdx_le st.ids (jsSubstr msg 0 2)
    omega

theorem C5_witness :
    onReceivedString okHandlerState ['0', '1', 'x', '~'] ≠ .nullHandler :=
  C5_no_fatal_amended okHandlerState ['0', '1', 'x', '~'] (by decide) (by decide)
    (by decide)

theorem dropsId_false_iff (idstr : List Char) :
    dropsId idstr = false ↔
      jsPlus2 idstr = none ∨
        ∃ q, jsPlus2 idstr = some q ∧ 0 < q ∧ q < 100 := by
  cases hp : jsPlus2 idstr with
  | none => simp [dropsId, hp]
  | some q =>
      simp only [dropsId, hp, decide_eq_false_iff_not, not_or, not_le]
      constructor
      · rintro ⟨h1, h2⟩
        exact Or.inr ⟨q, rfl, h1, h2⟩
      · rintro (h | ⟨q', hq', h1, h2⟩)
        · exact absurd h (by simp)
        · injection hq' with hq'
          subst hq'
          exact ⟨h1, h2⟩

/-- Claim C6, counterexample: the id XY does not parse as a number
(NaN), yet the unit is NOT silently dropped: both guard comparisons
are false on NaN, so the id is auto-registered and the message is
delivered to the fallback callback, changing registry state. -/
theorem C6_counterexample :
    onReceivedString emptyFallbackState ['X', 'Y', 'h', 'i', '~'] =
      .ok ⟨[['X', 'Y']], [[]], [some 0], some 0⟩ [(0, ['h', 'i'])] ∧
    ([['X', 'Y']] : List (List Char)) ≠ [] := ⟨rfl, by decide⟩

/-- Claim C6, amended: a unit whose leading two-character id is not in
the registry is silently dropped, with no state change, exactly when
the id parses to a numeric value that is at most 0 or at least 100;
in every other case — a value strictly between 0 and 100 OR a
non-numeric id, since NaN fails both guard comparisons — the id is
auto-registered (normalized) and bound to the shared fallback
callback. -/
theorem C6_gate_amended {κ : Type} (st : RadioState κ) (msg : List Char)
    (f₀ : κ)
    (hnf : findIdIdx st.ids (jsSubstr msg 0 2) = st.ids.length)
    (hfb : st.fallback = some f₀)
    (hwf : st.handlers.length = st.ids.length) :
    (dropsId (jsSubstr msg 0 2) = false ↔
      jsPlus2 (jsSubstr msg 0 2) = none ∨
        ∃ q, jsPlus2 (jsSubstr msg 0 2) = some q ∧ 0 < q ∧ q < 100) ∧
    (dropsId (jsSubstr msg 0 2) = true → onReceivedString st msg = .ok st []) ∧
    (dropsId (jsSubstr msg 0 2) = false →
      ∃ st' ds, onReceivedString st msg = .ok st' ds ∧
        st'.ids = st.ids ++ [normalizeId (jsSubstr msg 0 2)] ∧
        st'.handlers = st.handlers ++ [some f₀]) := by
  refine ⟨dropsId_false_iff _, ?_, ?_⟩
  · intro hd
    unfold onReceivedString recvRoute
    rw [if_pos hnf, hd]
    simp
  · intro hd
    unfold onReceivedString recvRoute
    rw [if_pos hnf, hd]
    simp only [Bool.false_eq_true, if_false]
    cases hm : recvEndOf msg
    · rw [deliverStep_notfinal]
      refine ⟨_, _, rfl, rfl, ?_⟩
      show st.handlers ++ [st.fallback] = st.handlers ++ [some f₀]
      rw [hfb]
    · have hget : ((registerMessageHandler st (jsSubstr msg 0 2)
          st.fallback).1.handlers).getD (findIdIdx st.ids (jsSubstr msg 0 2))
          none = some f₀ := by
        show ((st.handlers ++ [st.fallback]).getD
          (findIdIdx st.ids (jsSubstr msg 0 2)) none) = some f₀
        rw [hnf, ← hwf, List.getD_eq_getElem?_getD,
          List.getElem?_concat_length, hfb]
        rfl
      rw [deliverStep_final _ _ _ f₀ hget]
      refine ⟨_, _, rfl, rfl, ?_⟩
      show st.handlers ++ [st.fallback] = st.handlers ++ [some f₀]
      rw [hfb]

theorem C6_witness :
    onReceivedString emptyFallbackState ['0', '0', 'x', '~'] =
      .ok emptyFallbackState [] ∧
    (∃ st' ds,
      onReceivedString emptyFallbackState ['0', '7', 'h', 'i', '~'] =
        .ok st' ds ∧
      st'.ids = emptyFallbackState.ids ++
        [normalizeId (jsSubstr ['0', '7', 'h', 'i', '~'] 0 2)] ∧
      st'.handlers = emptyFallbackState.handlers ++ [some 0]) := by
  constructor
  · exact (C6_gate_amended emptyFallbackState ['0', '0', 'x', '~'] 0
      rfl rfl rfl).2.1 (by decide)
  · exact (C6_gate_amended emptyFallbackState ['0', '7', 'h', 'i', '~'] 0
      rfl rfl rfl).2.2 (by decide)
